import Mathlib

/-!
Shallow embedding of the WAL log-state management engine of `wal.go`
(package `wal`, repository dreamsxin/wal).

The embedding models the in-memory `state` snapshot (an ordered collection
of segments, each with its metadata record and its readable entry content),
and the state-transforming parts of the public operations: `StoreLogs`,
`TruncateFront`, `TruncateBack`, the internal transactions
`resetEmptyFirstSegmentBaseIndex`, `truncateHeadLocked`,
`truncateTailLocked`, `createNextSegment`, the transaction engine
`mutateStateLocked`, and the segment-recovery loop of `Open`.

External collaborators (`SegmentFiler`, `MetaStore`, segment writers and
readers) are modelled as in-memory values: a segment's file content is the
list of entries it holds; metadata commits and file creations succeed
unless a theorem explicitly quantifies over their failure (the
`mutateStateLocked` model is parameterized over commit/post-commit
outcomes).  Wall-clock timestamps are naturals with `0` playing the role of
Go's zero `time.Time` (`SealTime.IsZero`).  Concurrency (the writer mutex,
the background rotation goroutine, the `closed` flag) is outside the
embedding: operations are modelled as sequential state transformers, which
corresponds to executions of an open WAL in which no rotation is
interleaved.
-/

/-- One log record: a caller-assigned index and its payload bytes. -/
structure LogEntry where
  index : Nat
  data : List Nat
deriving DecidableEq, Repr

/-- Metadata record describing one segment (Go `types.SegmentInfo`).
`sealTime = 0` means the segment is unsealed, mirroring
`SealTime.IsZero()`. -/
structure SegmentInfo where
  id : Nat
  baseIndex : Nat
  minIndex : Nat
  maxIndex : Nat
  indexStart : Nat
  sizeLimit : Nat
  createTime : Nat
  sealTime : Nat
deriving DecidableEq, Repr

/-- Error outcomes surfaced by the modelled operations. -/
inductive WalErr
  | notFound
  | outOfRange
  | nonMonotonic
  | notEmpty
  | noTail
  | unsealedNotAtTail
  | ioErr
deriving DecidableEq, Repr

/-- In-memory per-segment record: the `SegmentInfo` plus the content
reachable through its reader `r` (for the tail, the reader is the writer,
so the content is everything appended so far). -/
structure segmentState where
  info : SegmentInfo
  entries : List LogEntry
deriving DecidableEq, Repr

/-- The immutable WAL state snapshot (Go `state`).  `segments` is the
ordered map `baseIndex -> segmentState`, kept as a list in ascending
`baseIndex` order; `tail` holds the base index of the segment owned by the
live tail writer (`none` mid-transaction before `postCommit` installs
it). -/
structure state where
  segments : List segmentState
  tail : Option Nat
  nextSegmentID : Nat
  nextBaseIndex : Nat
deriving DecidableEq, Repr

/-- Durable metadata snapshot (Go `types.PersistentState`). -/
structure PersistentState where
  nextSegmentID : Nat
  segments : List SegmentInfo
deriving DecidableEq, Repr

/-- Modelled from the spec: `PersistentState` is
`(next_segment_id, [SegmentInfo])` ordered by base index (spec 6.6); the
Go `state.Persistent` accessor lives in the repository's `state.go`, which
is not among the provided sources. -/
def state.Persistent (s : state) : PersistentState :=
  { nextSegmentID := s.nextSegmentID, segments := s.segments.map (·.info) }

/-- Model of `immutable.SortedMap.Set`: insert or replace by key, where the key is
always the segment's `baseIndex` at every call site of `wal.go`. -/
def segSet : List segmentState → segmentState → List segmentState
  | [], ss => [ss]
  | a :: rest, ss =>
    if ss.info.baseIndex < a.info.baseIndex then ss :: a :: rest
    else if a.info.baseIndex = ss.info.baseIndex then ss :: rest
    else a :: segSet rest ss

/-- Model of `immutable.SortedMap.Delete` by key. -/
def segDelete (l : List segmentState) (b : Nat) : List segmentState :=
  l.filter (fun ss => ss.info.baseIndex != b)

/-- Modelled from the spec: `get_tail_info` returns a copy of the last
segment's record (spec 4.1); defined in the repository's `state.go`, which
is not among the provided sources. -/
def state.getTailInfo (s : state) : Option segmentState :=
  s.segments.getLast?

/-- Content of the live tail writer: the entries of the segment the tail
handle points at. -/
def state.tailEntries (s : state) : List LogEntry :=
  match s.tail with
  | none => []
  | some b =>
    match s.segments.find? (fun ss => ss.info.baseIndex == b) with
    | some ss => ss.entries
    | none => []

/-- Model of `SegmentWriter.LastIndex`: index of the last entry appended to the
tail so far, `0` if none (spec 6.3). -/
def state.tailLastIndex (s : state) : Nat :=
  match s.tailEntries.getLast? with
  | some e => e.index
  | none => 0

/-- Modelled from the spec: `last_index` is the tail's live last-written
index if the tail has content, else the sealed tail's `max_index`, else
the previous segment's `max_index`, else 0 (spec 3, invariant 5, and 4.1);
defined in the repository's `state.go`, which is not among the provided
sources. -/
def state.lastIndex (s : state) : Nat :=
  let t := s.tailLastIndex
  if 0 < t then t
  else
    match s.segments.reverse with
    | [] => 0
    | seg :: rest =>
      if seg.info.sealTime = 0 then
        match rest with
        | [] => 0
        | p :: _ => p.info.maxIndex
      else seg.info.maxIndex

/-- Modelled from the spec: `first_index` is the `min_index` of the
lowest-base segment, and 0 if the log is empty (spec 4.1, invariant 4, and
scenario S5 where a log holding only a fresh empty tail reports 0);
defined in the repository's `state.go`, which is not among the provided
sources. -/
def state.firstIndex (s : state) : Nat :=
  match s.segments with
  | [] => 0
  | seg :: _ =>
    if seg.info.sealTime = 0 ∧ s.tailLastIndex = 0 then 0
    else seg.info.minIndex

/-- A segment reader's `GetLog`: return the payload stored for `idx`,
`NotFound` if the segment does not hold it (spec 6.3). -/
def segReadLog (ss : segmentState) (idx : Nat) : Except WalErr (List Nat) :=
  match ss.entries.find? (fun e => e.index == idx) with
  | some e => .ok e.data
  | none => .error .notFound

/-- Modelled from the spec: `get_log` locates the segment with the
greatest `base_index ≤ idx`; fails with `NotFound` if there is none, if
`idx` is below the segment's `min_index`, or if the segment is sealed and
`idx` exceeds its `max_index`; otherwise dispatches to the segment's
reader (spec 4.1); defined in the repository's `state.go`, which is not
among the provided sources. -/
def state.getLog (s : state) (idx : Nat) : Except WalErr (List Nat) :=
  let found := s.segments.foldl
    (fun acc seg => if seg.info.baseIndex ≤ idx then some seg else acc) none
  match found with
  | none => .error .notFound
  | some ss =>
    if idx < ss.info.minIndex then .error .notFound
    else if ss.info.sealTime ≠ 0 ∧ ss.info.maxIndex < idx then .error .notFound
    else segReadLog ss idx

/-- Model of `WAL.newSegment`: a fresh `SegmentInfo` with the given ID and base
index (`MinIndex` starts at the base, size limit from configuration,
creation time from the clock). -/
def newSegment (cfg now id baseIndex : Nat) : SegmentInfo :=
  { id := id, baseIndex := baseIndex, minIndex := baseIndex, maxIndex := 0,
    indexStart := 0, sizeLimit := cfg, createTime := now, sealTime := 0 }

/-- Model of `WAL.createNextSegment`: compute the next segment (base =
last segment's `MaxIndex + 1`, else `nextBaseIndex` if set, else 1), give
it the current `nextSegmentID`, bump the ID counter and insert the segment
(not yet backed by a writer).  Returns the pre-`postCommit` state and the
new segment's info; the `postCommit` file creation is modelled by
installing the (empty) writer as `tail`. -/
def createNextSegment (cfg now : Nat) (s : state) : state × SegmentInfo :=
  let tail := s.getTailInfo
  let nextBaseIndex :=
    match tail with
    | some t => t.info.maxIndex + 1
    | none => if 0 < s.nextBaseIndex then s.nextBaseIndex else 1
  let newTail := newSegment cfg now s.nextSegmentID nextBaseIndex
  ({ s with segments := segSet s.segments ⟨newTail, []⟩,
            nextSegmentID := s.nextSegmentID + 1 }, newTail)

/-- Model of `WAL.resetEmptyFirstSegmentBaseIndex` executed through
`mutateStateLocked` with the in-memory metadata commit and file creation
succeeding: errors if the log is non-empty, no-ops if the tail already has
the requested base, otherwise retires the empty tail, records the
requested base in `nextBaseIndex` and creates the replacement tail.  On
error the published state is unchanged. -/
def resetEmptyFirstSegmentBaseIndex (cfg now : Nat) (s : state)
    (newBaseIndex : Nat) : state × Option WalErr :=
  if 0 < s.lastIndex then (s, some .notEmpty)
  else
    match s.getTailInfo with
    | some tailSeg =>
      if tailSeg.info.baseIndex = newBaseIndex then (s, none)
      else
        let s1 := { s with segments := segDelete s.segments tailSeg.info.baseIndex,
                           tail := none, nextBaseIndex := newBaseIndex }
        let r := createNextSegment cfg now s1
        ({ r.1 with tail := some r.2.baseIndex }, none)
    | none =>
      let s1 := { s with nextBaseIndex := newBaseIndex }
      let r := createNextSegment cfg now s1
      ({ r.1 with tail := some r.2.baseIndex }, none)

/-- The monotonicity check loop of `WAL.StoreLogs` (lines 421-428):
walking the batch with the running `lastIdx`, an entry errors exactly when
the running `lastIdx` is positive and the entry's index is not
`lastIdx + 1`; the running `lastIdx` becomes the entry's index. -/
def validateMonotonic (lastIdx : Nat) : List LogEntry → Bool
  | [] => false
  | l :: rest =>
    if 0 < lastIdx ∧ l.index ≠ lastIdx + 1 then true
    else validateMonotonic l.index rest

/-- Model of `SegmentWriter.Append` on the live tail: the batch is appended to the
tail segment's content. -/
def tailAppend (s : state) (es : List LogEntry) : state :=
  match s.tail with
  | none => s
  | some b =>
    let upd := fun (ss : segmentState) =>
      if ss.info.baseIndex == b
      then { ss with entries := ss.entries ++ es } else ss
    { s with segments := s.segments.map upd }

/-- Model of `WAL.StoreLogs` on an open WAL, as a state transformer: empty batches
return immediately; a first append into an empty log whose index differs
from the tail's base triggers `resetEmptyFirstSegmentBaseIndex` (and
re-reads the state); the batch is then validated against the `lastIdx`
read before the reset and, if valid, appended to the tail.  The sealed
check after the append only signals the asynchronous rotation goroutine
and changes no state, so it is not modelled.  The result pairs the
published state with the returned error, so state changes made before a
validation failure (the reset) remain visible. -/
def storeLogs (cfg now : Nat) (s : state) (encoded : List LogEntry) :
    state × Option WalErr :=
  match encoded with
  | [] => (s, none)
  | e0 :: _ =>
    let lastIdx := s.lastIndex
    match s.getTailInfo with
    | none => (s, some .noTail)
    | some ti =>
      let rs :=
        if lastIdx = 0 ∧ e0.index ≠ ti.info.baseIndex then
          resetEmptyFirstSegmentBaseIndex cfg now s e0.index
        else (s, none)
      match rs with
      | (s1, some e) => (s1, some e)
      | (s1, none) =>
        if validateMonotonic lastIdx encoded then (s1, some .nonMonotonic)
        else (tailAppend s1 encoded, none)

/-- A sequence of `StoreLogs` calls, stopping at the first error (the
clock argument is irrelevant to every observable and fixed at 0). -/
def storeAll (cfg : Nat) : state → List (List LogEntry) → state × Option WalErr
  | s, [] => (s, none)
  | s, b :: bs =>
    match storeLogs cfg 0 s b with
    | (s', none) => storeAll cfg s' bs
    | (s', some e) => (s', some e)

/-- The ascending deletion loop of `WAL.truncateHeadLocked`: walk the
iterator snapshot of the segments; an unsealed segment survives when the
current state's `lastIndex` has reached `newMin`, a sealed one when its
`maxIndex` has; otherwise the segment is deleted from the state.  Returns
the state after deletions and the surviving head, if any. -/
def truncHeadLoop (newMin : Nat) : state → List segmentState → state × Option segmentState
  | s, [] => (s, none)
  | s, seg :: rest =>
    if seg.info.sealTime = 0 then
      if newMin ≤ s.lastIndex then (s, some seg)
      else truncHeadLoop newMin
        { s with segments := segDelete s.segments seg.info.baseIndex } rest
    else if newMin ≤ seg.info.maxIndex then (s, some seg)
    else truncHeadLoop newMin
      { s with segments := segDelete s.segments seg.info.baseIndex } rest

/-- Model of `WAL.truncateHeadLocked` through `mutateStateLocked` with commit and
file creation succeeding: delete wholly-truncated segments; if a head
survives raise its `MinIndex` to `newMin`, otherwise record
`nextBaseIndex = old lastIndex + 1` and create a fresh tail. -/
def truncateHeadLocked (cfg now : Nat) (s : state) (newMin : Nat) : state :=
  let oldLastIndex := s.lastIndex
  let r := truncHeadLoop newMin s s.segments
  match r.2 with
  | some h =>
    let h' := { h with info := { h.info with minIndex := newMin } }
    { r.1 with segments := segSet r.1.segments h' }
  | none =>
    let s2 := { r.1 with nextBaseIndex := oldLastIndex + 1 }
    let c := createNextSegment cfg now s2
    { c.1 with tail := some c.2.baseIndex }

/-- Model of `WAL.TruncateFront` on an open WAL: a no-op when `index` is below
`firstIndex`, otherwise `truncateHeadLocked`.  `lastIndex` is never
consulted. -/
def truncateFront (cfg now : Nat) (s : state) (index : Nat) : state × Option WalErr :=
  if index < s.firstIndex then (s, none)
  else (truncateHeadLocked cfg now s index, none)

/-- The descending deletion loop of `WAL.truncateTailLocked`: walk the
reversed iterator snapshot, deleting every segment whose `baseIndex`
exceeds `newMax` and stopping at the first that does not. -/
def truncTailLoop (newMax : Nat) : state → List segmentState → state
  | s, [] => s
  | s, seg :: rest =>
    if seg.info.baseIndex ≤ newMax then s
    else truncTailLoop newMax
      { s with segments := segDelete s.segments seg.info.baseIndex } rest

/-- Model of `WAL.truncateTailLocked` through `mutateStateLocked` with commit and
file creation succeeding: delete segments based past `newMax`; seal the
surviving tail if it was unsealed and set its `MaxIndex` to `newMax`;
always create a fresh writable tail. -/
def truncateTailLocked (cfg now : Nat) (s : state) (newMax : Nat) : state :=
  let s1 := truncTailLoop newMax s s.segments.reverse
  let s2 :=
    match s1.getTailInfo with
    | some t =>
      let t1 := if t.info.sealTime = 0
                then { t with info := { t.info with sealTime := now } } else t
      let t2 := { t1 with info := { t1.info with maxIndex := newMax } }
      { s1 with segments := segSet s1.segments t2 }
    | none => s1
  let c := createNextSegment cfg now s2
  { c.1 with tail := some c.2.baseIndex }

/-- Model of `WAL.TruncateBack` on an open WAL: a no-op when `index` is above
`lastIndex`; an `OutOfRange` error when `index` is below `firstIndex`
(checked second); otherwise `truncateTailLocked`. -/
def truncateBack (cfg now : Nat) (s : state) (index : Nat) : state × Option WalErr :=
  if s.lastIndex < index then (s, none)
  else if index < s.firstIndex then (s, some .outOfRange)
  else (truncateTailLocked cfg now s index, none)

/-- The state published by `Open` on a fresh directory: one empty unsealed
segment with base index 1 and segment ID 0, next ID 1, live tail writer
installed. -/
def initialState (cfg : Nat) : state :=
  { segments := [⟨newSegment cfg 0 0 1, []⟩], tail := some 1,
    nextSegmentID := 1, nextBaseIndex := 0 }

/-- Entries retained anywhere in the state, in segment order. -/
def allEntries (s : state) : List LogEntry :=
  (s.segments.map (·.entries)).flatten

/-- The predicate `consecFrom i es` holds when the indices of `es` are exactly
`i, i+1, ...` in order. -/
def consecFrom : Nat → List LogEntry → Bool
  | _, [] => true
  | i, e :: rest => e.index == i && consecFrom (i + 1) rest

/-- Observable steps taken by `WAL.mutateStateLocked`, in execution
order: running the transaction body, committing the metadata, running the
`postCommit` hook, atomically publishing the new state (which also
attaches the finalizer to the old state). -/
inductive MEvent
  | txRun
  | metaCommit
  | postCommitRun
  | publish
deriving DecidableEq, Repr

/-- The WAL-level view `mutateStateLocked` manipulates: the published
in-memory state, the durably committed metadata, and whether a finalizer
has been attached to the retired state. -/
structure MWorld where
  published : state
  meta : PersistentState
  finAttached : Bool
deriving DecidableEq, Repr

/-- Model of `WAL.mutateStateLocked`, instrumented with its event trace.  The
transaction body receives a clone of the published state and yields the
mutated clone, whether a finalizer was returned, and an optional
`postCommit` hook (which may mutate the state further and may fail); the
metadata commit outcome is a parameter of the model.  The new state is
stored, and the finalizer attached, only on the all-success path; the
metadata is committed from the transaction's output before `postCommit`
runs. -/
def mutateStateLocked
    (tx : state → Except WalErr (state × Bool × Option (state → Except WalErr state)))
    (commitErr : Option WalErr) (w : MWorld) :
    MWorld × List MEvent × Option WalErr :=
  match tx w.published with
  | .error e => (w, [.txRun], some e)
  | .ok (newS, hasFin, post) =>
    match commitErr with
    | some e => (w, [.txRun], some e)
    | none =>
      let w1 := { w with meta := newS.Persistent }
      match post with
      | none =>
        ({ w1 with published := newS, finAttached := hasFin },
         [.txRun, .metaCommit, .publish], none)
      | some p =>
        match p newS with
        | .error e => (w1, [.txRun, .metaCommit, .postCommitRun], some e)
        | .ok newS2 =>
          ({ w1 with published := newS2, finAttached := hasFin },
           [.txRun, .metaCommit, .postCommitRun, .publish], none)

/-- Outcome of `SegmentFiler.RecoverTail`: a recovered writer holding the
file's entries, a file-does-not-exist report (`os.ErrNotExist`), or any
other failure. -/
inductive RecoverRes
  | ok (entries : List LogEntry)
  | notExist
  | fail
deriving DecidableEq, Repr

/-- The segment filer behaviors `Open` consults while rebuilding state:
`recoverTail` for the unsealed tail and `openSeg` for sealed segments
(`none` = error); `Create` always succeeds and returns an empty writer. -/
structure FilerModel where
  recoverTail : SegmentInfo → RecoverRes
  openSeg : SegmentInfo → Option (List LogEntry)

/-- Calls `Open` makes on the segment filer, recorded in order. -/
inductive FCall
  | recoverTailC (id : Nat)
  | createC (id : Nat)
  | openC (id : Nat)
deriving DecidableEq, Repr

/-- The segment-recovery loop of `Open` (wal.go lines 147-201): walk the
persisted segment infos in order; an unsealed segment must be the last or
`Open` fails; the unsealed tail is recovered via `RecoverTail`, falling
back to `Create` exactly when the file does not exist, and the resulting
writer is installed as the tail; sealed segments are opened for reading.
Returns the built state, whether a tail was recovered, and the trace of
filer calls. -/
def openSegmentsLoop (fm : FilerModel) :
    state → List FCall → List SegmentInfo → Except WalErr (state × Bool) × List FCall
  | st, tr, [] => (.ok (st, false), tr)
  | st, tr, si :: rest =>
    if si.sealTime = 0 then
      if rest ≠ [] then (.error .unsealedNotAtTail, tr)
      else
        let tr1 := tr ++ [.recoverTailC si.id]
        match fm.recoverTail si with
        | .ok es =>
          (.ok ({ st with segments := segSet st.segments ⟨si, es⟩,
                          tail := some si.baseIndex }, true), tr1)
        | .notExist =>
          let tr2 := tr1 ++ [.createC si.id]
          (.ok ({ st with segments := segSet st.segments ⟨si, []⟩,
                          tail := some si.baseIndex }, true), tr2)
        | .fail => (.error .ioErr, tr1)
    else
      let tr1 := tr ++ [.openC si.id]
      match fm.openSeg si with
      | none => (.error .ioErr, tr1)
      | some es =>
        openSegmentsLoop fm
          { st with segments := segSet st.segments ⟨si, es⟩ } tr1 rest

/-- Well-formedness of a published state, the spec's section-3 invariants:
segments are non-empty and strictly ordered by base index; every segment
but the last is sealed; the last is the unsealed tail and owns the live
writer; base indices are positive and bound `minIndex` from below; a
sealed segment's retained range is non-trivial and below `lastIndex`;
every segment's content is consecutively indexed from its base; and
`firstIndex ≤ lastIndex`. -/
def WF (s : state) : Prop :=
  s.segments ≠ [] ∧
  s.segments.Pairwise (fun a b => a.info.baseIndex < b.info.baseIndex) ∧
  (∀ seg ∈ s.segments.dropLast, seg.info.sealTime ≠ 0) ∧
  (∀ seg ∈ s.segments.getLast?, seg.info.sealTime = 0 ∧ s.tail = some seg.info.baseIndex) ∧
  (∀ seg ∈ s.segments, 1 ≤ seg.info.baseIndex ∧ seg.info.baseIndex ≤ seg.info.minIndex) ∧
  (∀ seg ∈ s.segments, seg.info.sealTime ≠ 0 →
    seg.info.minIndex ≤ seg.info.maxIndex ∧ seg.info.maxIndex ≤ s.lastIndex) ∧
  (∀ seg ∈ s.segments, consecFrom seg.info.baseIndex seg.entries = true) ∧
  s.firstIndex ≤ s.lastIndex

instance (s : state) : Decidable (WF s) := by
  unfold WF
  infer_instance

/-- Fixture: a state whose only segment is sealed with `minIndex = 2`,
`maxIndex = 5`, so `firstIndex = 2` and `lastIndex = 5`. -/
def sampleSealedState : state :=
  { segments := [⟨{ id := 0, baseIndex := 1, minIndex := 2, maxIndex := 5,
                    indexStart := 0, sizeLimit := 100, createTime := 0,
                    sealTime := 3 }, [⟨2, [9]⟩, ⟨3, [8]⟩, ⟨4, [7]⟩, ⟨5, [6]⟩]⟩],
    tail := none, nextSegmentID := 1, nextBaseIndex := 0 }

/-- Fixture: a (deliberately ill-formed) state reporting
`firstIndex = 5 > lastIndex = 0`, to exercise guard ordering. -/
def sampleInvertedState : state :=
  { segments := [⟨{ id := 0, baseIndex := 1, minIndex := 5, maxIndex := 0,
                    indexStart := 0, sizeLimit := 100, createTime := 0,
                    sealTime := 3 }, []⟩],
    tail := none, nextSegmentID := 1, nextBaseIndex := 0 }

/-- Fixture: a tail-less state with a nonzero `nextBaseIndex` hint. -/
def sampleNoTailHintState : state :=
  { segments := [], tail := none, nextSegmentID := 3, nextBaseIndex := 7 }

/-- Fixture: a tail-less state with `nextBaseIndex` unset. -/
def sampleNoTailState : state :=
  { segments := [], tail := none, nextSegmentID := 3, nextBaseIndex := 0 }

/-- Fixture transaction body: succeeds, returns a finalizer and a
succeeding `postCommit`. -/
def sampleTx : state → Except WalErr (state × Bool × Option (state → Except WalErr state)) :=
  fun s => .ok (s, true, some (fun s2 => .ok s2))

/-- Fixture world for the transaction engine. -/
def sampleWorld : MWorld :=
  { published := initialState 100, meta := (initialState 100).Persistent,
    finAttached := false }

/-- The state accumulated by `Open`'s loop after opening a run of sealed
segments: each is inserted with the reader content the filer supplies. -/
def openedState (fm : FilerModel) (st : state) (front : List SegmentInfo) : state :=
  front.foldl
    (fun acc si => { acc with segments := segSet acc.segments ⟨si, (fm.openSeg si).getD []⟩ })
    st

/-- Filer calls produced by opening a run of sealed segments. -/
def openTrace (front : List SegmentInfo) : List FCall :=
  front.map (fun sj => FCall.openC sj.id)

/-- Fixture: a persisted sealed segment record. -/
def sampleSealedInfo : SegmentInfo :=
  { id := 4, baseIndex := 1, minIndex := 1, maxIndex := 2, indexStart := 9,
    sizeLimit := 100, createTime := 0, sealTime := 3 }

/-- Fixture: a persisted unsealed segment record. -/
def sampleUnsealedInfo : SegmentInfo := newSegment 100 0 5 3

/-- Fixture filer whose tail recovery reports a missing file. -/
def sampleFilerNotExist : FilerModel :=
  { recoverTail := fun _ => .notExist,
    openSeg := fun _ => some [⟨1, [1]⟩, ⟨2, [2]⟩] }

/-- Fixture filer whose tail recovery succeeds. -/
def sampleFilerOk : FilerModel :=
  { recoverTail := fun _ => .ok [⟨3, [5]⟩],
    openSeg := fun _ => some [] }

/-- Fixture: a well-formed two-segment log, a sealed segment covering
indices 1..2 followed by the unsealed tail holding index 3. -/
def sampleTwoSegState : state :=
  { segments :=
      [⟨{ id := 0, baseIndex := 1, minIndex := 1, maxIndex := 2, indexStart := 0,
          sizeLimit := 100, createTime := 0, sealTime := 5 }, [⟨1, [1]⟩, ⟨2, [2]⟩]⟩,
       ⟨{ id := 1, baseIndex := 3, minIndex := 3, maxIndex := 0, indexStart := 0,
          sizeLimit := 100, createTime := 0, sealTime := 0 }, [⟨3, [3]⟩]⟩],
    tail := some 3, nextSegmentID := 2, nextBaseIndex := 0 }

/-- Some adjacent pair of the batch breaks the `+1` step. -/
def adjacentViolation : List LogEntry → Bool
  | [] => false
  | [_] => false
  | a :: b :: rest => (b.index != a.index + 1) || adjacentViolation (b :: rest)

/-- The violation condition of the monotonicity contract for a batch
appended after `lastIdx`: an adjacent pair breaks the `+1` step, or the
log is non-empty and the first entry is not `lastIdx + 1`. -/
def batchViolation (lastIdx : Nat) : List LogEntry → Bool
  | [] => false
  | e0 :: rest =>
    adjacentViolation (e0 :: rest) || ((lastIdx != 0) && (e0.index != lastIdx + 1))

/-- Shape of every state reachable from a fresh WAL by appends that stay
within the first segment: one unsealed segment at `base` holding `done`,
its writer installed as the tail, clock fixed at 0. -/
def midState (cfg sid nbi base : Nat) (done : List LogEntry) : state :=
  { segments := [⟨newSegment cfg 0 sid base, done⟩], tail := some base,
    nextSegmentID := sid + 1, nextBaseIndex := nbi }

/-- Invariant threaded through a sequence of appends starting from the
fresh WAL: before the first entry lands the state is a fresh empty
segment at some positive base; afterwards it is the single segment at
`i0` holding exactly the entries appended so far. -/
def PState (cfg i0 : Nat) (done : List LogEntry) (s : state) : Prop :=
  (done = [] ∧ ∃ sid nbi b0, 1 ≤ b0 ∧ s = midState cfg sid nbi b0 []) ∨
  (done ≠ [] ∧ ∃ sid nbi, s = midState cfg sid nbi i0 done)

/-! Claim theorems. -/

/-- Claim C10: a `StoreLogs` call with an empty batch on an open WAL
returns success immediately, appends nothing and changes no state (the
empty-batch return sits before the writer lock is taken, so no locking is
involved; locking itself is outside this sequential embedding). -/
theorem c10_store_logs_empty_batch (cfg now : Nat) (s : state) :
    storeLogs cfg now s [] = (s, none) := rfl

/-- Claim C7: on an open WAL, `TruncateBack` with `newMax > lastIndex`
succeeds changing nothing; with `newMax < firstIndex` (and not caught by
the first guard) it returns `OutOfRange` changing nothing; and the
greater-than-last check fires before the less-than-first check. -/
theorem c7_truncate_back_guards (cfg now : Nat) (s : state) (index : Nat) :
    (s.lastIndex < index → truncateBack cfg now s index = (s, none)) ∧
    (index ≤ s.lastIndex → index < s.firstIndex →
      truncateBack cfg now s index = (s, some WalErr.outOfRange)) ∧
    (s.lastIndex < index → index < s.firstIndex →
      truncateBack cfg now s index = (s, none)) := by
  refine ⟨fun h => ?_, fun h1 h2 => ?_, fun h1 _ => ?_⟩
  · simp [truncateBack, h]
  · unfold truncateBack
    rw [if_neg (by omega), if_pos h2]
  · simp [truncateBack, h1]

theorem c7_witness :
    truncateBack 100 1 sampleSealedState 6 = (sampleSealedState, none) ∧
    truncateBack 100 1 sampleSealedState 1 = (sampleSealedState, some WalErr.outOfRange) ∧
    truncateBack 100 1 sampleInvertedState 3 = (sampleInvertedState, none) :=
  ⟨(c7_truncate_back_guards 100 1 sampleSealedState 6).1 (by decide),
   (c7_truncate_back_guards 100 1 sampleSealedState 1).2.1 (by decide) (by decide),
   (c7_truncate_back_guards 100 1 sampleInvertedState 3).2.2 (by decide) (by decide)⟩

/-- Claim C5: `createNextSegment` gives the new segment the state's
current `nextSegmentID` and increments that counter by one; the new base
index is the last segment's `MaxIndex + 1` when a last segment exists,
else the state's `nextBaseIndex` when nonzero, else 1. -/
theorem c5_create_next_segment (cfg now : Nat) (s : state) :
    (createNextSegment cfg now s).2.id = s.nextSegmentID ∧
    (createNextSegment cfg now s).1.nextSegmentID = s.nextSegmentID + 1 ∧
    (∀ t, s.getTailInfo = some t →
      (createNextSegment cfg now s).2.baseIndex = t.info.maxIndex + 1) ∧
    (s.getTailInfo = none → 0 < s.nextBaseIndex →
      (createNextSegment cfg now s).2.baseIndex = s.nextBaseIndex) ∧
    (s.getTailInfo = none → s.nextBaseIndex = 0 →
      (createNextSegment cfg now s).2.baseIndex = 1) := by
  refine ⟨by simp [createNextSegment, newSegment], by simp [createNextSegment],
    fun t ht => ?_, fun h1 h2 => ?_, fun h1 h2 => ?_⟩
  · simp [createNextSegment, newSegment, ht]
  · simp [createNextSegment, newSegment, h1, h2]
  · simp [createNextSegment, newSegment, h1, h2]

theorem c5_witness :
    (createNextSegment 100 0 (initialState 100)).2.baseIndex = 0 + 1 ∧
    (createNextSegment 100 0 sampleNoTailHintState).2.baseIndex = 7 ∧
    (createNextSegment 100 0 sampleNoTailState).2.baseIndex = 1 :=
  ⟨(c5_create_next_segment 100 0 (initialState 100)).2.2.1 ⟨newSegment 100 0 0 1, []⟩ rfl,
   (c5_create_next_segment 100 0 sampleNoTailHintState).2.2.2.1 rfl (by decide),
   (c5_create_next_segment 100 0 sampleNoTailState).2.2.2.2 rfl rfl⟩

/-- Claim C2: in `mutateStateLocked`, an error from the transaction body,
the metadata commit or the `postCommit` hook leaves the published state
(and the finalizer attachment) unchanged; the new state is published
exactly when no error occurred, which requires the metadata commit to have
happened; and whenever `postCommit` ran, the metadata commit ran before
it. -/
theorem c2_mutate_state_ordering
    (tx : state → Except WalErr (state × Bool × Option (state → Except WalErr state)))
    (commitErr : Option WalErr) (w : MWorld) :
    ((mutateStateLocked tx commitErr w).2.2 ≠ none →
      (mutateStateLocked tx commitErr w).1.published = w.published ∧
      (mutateStateLocked tx commitErr w).1.finAttached = w.finAttached) ∧
    (MEvent.publish ∈ (mutateStateLocked tx commitErr w).2.1 ↔
      (mutateStateLocked tx commitErr w).2.2 = none) ∧
    (MEvent.postCommitRun ∈ (mutateStateLocked tx commitErr w).2.1 →
      MEvent.metaCommit ∈ (mutateStateLocked tx commitErr w).2.1 ∧
      (mutateStateLocked tx commitErr w).2.1.indexOf MEvent.metaCommit <
        (mutateStateLocked tx commitErr w).2.1.indexOf MEvent.postCommitRun) := by
  rcases htx : tx w.published with e | ⟨newS, hasFin, post⟩
  · simp [mutateStateLocked, htx]
  · rcases commitErr with _ | ce
    · rcases post with _ | p
      · simp [mutateStateLocked, htx]
      · rcases hp : p newS with e2 | newS2
        · simp [mutateStateLocked, htx, hp]
        · simp [mutateStateLocked, htx, hp]
    · simp [mutateStateLocked, htx]

theorem c2_witness :
    MEvent.publish ∈ (mutateStateLocked sampleTx none sampleWorld).2.1 ∧
    MEvent.metaCommit ∈ (mutateStateLocked sampleTx none sampleWorld).2.1 ∧
    (mutateStateLocked sampleTx (some WalErr.ioErr) sampleWorld).1.published =
      sampleWorld.published :=
  ⟨(c2_mutate_state_ordering sampleTx none sampleWorld).2.1.mpr (by decide),
   ((c2_mutate_state_ordering sampleTx none sampleWorld).2.2 (by decide)).1,
   ((c2_mutate_state_ordering sampleTx (some WalErr.ioErr) sampleWorld).1 (by decide)).1⟩

/-- Processing a persisted list that has an unsealed segment anywhere but
last always errors, whatever the filer does. -/
lemma openSegmentsLoop_error_of_unsealed_mid (fm : FilerModel) :
    ∀ (ps : List SegmentInfo) (st : state) (tr : List FCall),
      (∃ i, ∃ h : i < ps.length, (ps.get ⟨i, h⟩).sealTime = 0 ∧ i + 1 < ps.length) →
      ∃ e tr', openSegmentsLoop fm st tr ps = (.error e, tr') := by
  intro ps
  induction ps with
  | nil =>
    rintro st tr ⟨i, h, _⟩
    simp at h
  | cons si rest ih =>
    rintro st tr ⟨i, hi, hseal, hlt⟩
    by_cases h0 : si.sealTime = 0
    · have hrest : rest ≠ [] := by
        rcases rest with _ | ⟨a, as⟩
        · simp at hlt
        · simp
      exact ⟨.unsealedNotAtTail, tr, by simp [openSegmentsLoop, h0, hrest]⟩
    · rcases i with _ | j
      · simp at hseal
        exact absurd hseal h0
    
      · rcases hopen : fm.openSeg si with _ | es
        · exact ⟨.ioErr, tr ++ [.openC si.id], by simp [openSegmentsLoop, h0, hopen]⟩
        · have hj : j < rest.length := by
            simp at hi
            omega
          have hj2 : j + 1 < rest.length := by
            simp at hlt
            omega
          have hsealj : (rest.get ⟨j, hj⟩).sealTime = 0 := by
            simpa using hseal
          obtain ⟨e, tr', heq⟩ :=
            ih { st with segments := segSet st.segments ⟨si, es⟩ }
              (tr ++ [.openC si.id]) ⟨j, hj, hsealj, hj2⟩
          exact ⟨e, tr', by simp [openSegmentsLoop, h0, hopen, heq]⟩

/-- Processing a run of sealed, openable segments followed by one unsealed
segment: the unsealed one is recovered via `RecoverTail`, with `Create`
called exactly when the file does not exist, and is installed as the
tail. -/
lemma openSegmentsLoop_tail_eq (fm : FilerModel) (si : SegmentInfo)
    (hsi : si.sealTime = 0) :
    ∀ (front : List SegmentInfo) (st : state) (tr : List FCall),
      (∀ sj ∈ front, sj.sealTime ≠ 0 ∧ fm.openSeg sj ≠ none) →
      openSegmentsLoop fm st tr (front ++ [si]) =
        (match fm.recoverTail si with
         | .ok es =>
           (.ok ({ openedState fm st front with
              segments := segSet (openedState fm st front).segments ⟨si, es⟩,
              tail := some si.baseIndex }, true),
            tr ++ openTrace front ++ [.recoverTailC si.id])
         | .notExist =>
           (.ok ({ openedState fm st front with
              segments := segSet (openedState fm st front).segments ⟨si, []⟩,
              tail := some si.baseIndex }, true),
            tr ++ openTrace front ++ [.recoverTailC si.id, .createC si.id])
         | .fail =>
           (.error .ioErr, tr ++ openTrace front ++ [.recoverTailC si.id])) := by
  intro front
  induction front with
  | nil =>
    intro st tr _
    rcases hrec : fm.recoverTail si with es | _ | _ <;>
      simp [openSegmentsLoop, hsi, hrec, openedState, openTrace]
  | cons sj front' ih =>
    intro st tr hall
    obtain ⟨hs1, hs2⟩ := hall sj (by simp)
    rcases hopen : fm.openSeg sj with _ | es
    · exact absurd hopen hs2
    · have hall' : ∀ sk ∈ front', sk.sealTime ≠ 0 ∧ fm.openSeg sk ≠ none :=
        fun sk hk => hall sk (by simp [hk])
      have step := ih { st with segments := segSet st.segments ⟨sj, es⟩ }
        (tr ++ [.openC sj.id]) hall'
      rcases hrec : fm.recoverTail si with es2 | _ | _ <;>
        simp [hrec] at step <;>
        simp [openSegmentsLoop, hs1, hopen, hrec, step, openedState, openTrace]

/-- Opening sealed segments never calls `Create`. -/
lemma createC_not_mem_openTrace (j : Nat) (front : List SegmentInfo) :
    FCall.createC j ∉ openTrace front := by
  simp [openTrace]

/-- Claim C9: during `Open`, a persisted unsealed segment that is not the
last makes `Open` fail; when the unsealed segment is last (and the sealed
segments before it open successfully), `RecoverTail` is attempted and
`Create` is called exactly when the file does not exist, with the
resulting writer installed as the tail. -/
theorem c9_open_unsealed_tail_recovery :
    (∀ (fm : FilerModel) (ps : List SegmentInfo) (st : state) (tr : List FCall),
      (∃ i, ∃ h : i < ps.length, (ps.get ⟨i, h⟩).sealTime = 0 ∧ i + 1 < ps.length) →
      ∃ e tr', openSegmentsLoop fm st tr ps = (.error e, tr')) ∧
    (∀ (fm : FilerModel) (si : SegmentInfo) (front : List SegmentInfo) (st : state),
      si.sealTime = 0 →
      (∀ sj ∈ front, sj.sealTime ≠ 0 ∧ fm.openSeg sj ≠ none) →
      (∀ es, fm.recoverTail si = .ok es →
        openSegmentsLoop fm st [] (front ++ [si]) =
          (.ok ({ openedState fm st front with
             segments := segSet (openedState fm st front).segments ⟨si, es⟩,
             tail := some si.baseIndex }, true),
           openTrace front ++ [.recoverTailC si.id]) ∧
        FCall.createC si.id ∉ (openSegmentsLoop fm st [] (front ++ [si])).2) ∧
      (fm.recoverTail si = .notExist →
        openSegmentsLoop fm st [] (front ++ [si]) =
          (.ok ({ openedState fm st front with
             segments := segSet (openedState fm st front).segments ⟨si, []⟩,
             tail := some si.baseIndex }, true),
           openTrace front ++ [.recoverTailC si.id, .createC si.id]) ∧
        FCall.createC si.id ∈ (openSegmentsLoop fm st [] (front ++ [si])).2)) := by
  constructor
  · exact fun fm ps st tr h => openSegmentsLoop_error_of_unsealed_mid fm ps st tr h
  · intro fm si front st hsi hall
    have heq := openSegmentsLoop_tail_eq fm si hsi front st [] hall
    constructor
    · intro es hrec
      rw [hrec] at heq
      simp at heq
      refine ⟨heq, ?_⟩
      rw [heq]
      simp [createC_not_mem_openTrace]
    · intro hrec
      rw [hrec] at heq
      simp at heq
      refine ⟨heq, ?_⟩
      rw [heq]
      simp

theorem c9_witness :
    (∃ e tr', openSegmentsLoop sampleFilerOk sampleNoTailState []
        [sampleUnsealedInfo, sampleSealedInfo] = (.error e, tr')) ∧
    openSegmentsLoop sampleFilerNotExist sampleNoTailState []
        ([sampleSealedInfo] ++ [sampleUnsealedInfo]) =
      (.ok ({ openedState sampleFilerNotExist sampleNoTailState [sampleSealedInfo] with
         segments := segSet (openedState sampleFilerNotExist sampleNoTailState
           [sampleSealedInfo]).segments ⟨sampleUnsealedInfo, []⟩,
         tail := some sampleUnsealedInfo.baseIndex }, true),
       openTrace [sampleSealedInfo] ++
         [.recoverTailC sampleUnsealedInfo.id, .createC sampleUnsealedInfo.id]) :=
  ⟨c9_open_unsealed_tail_recovery.1 sampleFilerOk
     [sampleUnsealedInfo, sampleSealedInfo] sampleNoTailState []
     ⟨0, by decide, by decide, by decide⟩,
   ((c9_open_unsealed_tail_recovery.2 sampleFilerNotExist sampleUnsealedInfo
      [sampleSealedInfo] sampleNoTailState rfl (by decide)).2 rfl).1⟩

/-- When every index in the batch is positive, any violation of the
monotonicity contract is caught by the validation loop. -/
lemma validateMonotonic_of_violation :
    ∀ (es : List LogEntry) (lastIdx : Nat), (∀ e ∈ es, 1 ≤ e.index) →
      batchViolation lastIdx es = true → validateMonotonic lastIdx es = true := by
  intro es
  induction es with
  | nil => intro lastIdx _ hv; simp [batchViolation] at hv
  | cons e rest ih =>
    intro lastIdx hpos hv
    by_cases hfirst : 0 < lastIdx ∧ e.index ≠ lastIdx + 1
    · simp [validateMonotonic, hfirst]
    · rw [validateMonotonic, if_neg hfirst]
      rcases rest with _ | ⟨b, rest'⟩
      · simp [batchViolation, adjacentViolation] at hv
        omega
      · apply ih e.index (fun x hx => hpos x (by simp [hx]))
        have he : 1 ≤ e.index := hpos e (by simp)
        simp only [batchViolation, adjacentViolation, Bool.or_eq_true,
          Bool.and_eq_true, bne_iff_ne, ne_eq] at hv ⊢
        rcases hv with (hb | hadj) | ⟨hl, hf⟩
        · right
          exact ⟨by omega, hb⟩
        · left
          exact hadj
        · exact absurd ⟨by omega, hf⟩ hfirst

/-- The last entry of a consecutively indexed run has index
`start + length - 1`. -/
lemma consecFrom_getLast :
    ∀ (es : List LogEntry) (i : Nat) (e : LogEntry),
      consecFrom i es = true → es.getLast? = some e → e.index = i + es.length - 1 := by
  intro es
  induction es with
  | nil => intro i e _ h; simp at h
  | cons a rest ih =>
    intro i e hc hl
    rcases rest with _ | ⟨b, rest'⟩
    · simp at hl
      subst hl
      simp [consecFrom] at hc
      simp [hc]
    · rw [List.getLast?_cons_cons] at hl
      simp only [consecFrom, Bool.and_eq_true, beq_iff_eq] at hc
      have := ih (i + 1) e (by simp [consecFrom, hc.2.1, hc.2.2]) hl
      simp at this ⊢
      omega

/-- A well-formed state whose `lastIndex` is 0 holds exactly one segment:
an empty unsealed tail. -/
lemma WF_empty_struct (s : state) (hwf : WF s) (hl : s.lastIndex = 0) :
    ∃ seg, s.segments = [seg] ∧ seg.entries = [] ∧ seg.info.sealTime = 0 ∧
      s.tail = some seg.info.baseIndex := by
  obtain ⟨hne, hsort, hinit, htail, hbase, hrange, hshape, hfl⟩ := hwf
  have hallun : ∀ seg ∈ s.segments, seg.info.sealTime = 0 := by
    intro seg hm
    by_contra hsl
    obtain ⟨h1, h2⟩ := hrange seg hm hsl
    obtain ⟨h3, h4⟩ := hbase seg hm
    omega
  rcases hseg : s.segments with _ | ⟨a, rest⟩
  · exact absurd hseg hne
  rcases rest with _ | ⟨b, rest'⟩
  · refine ⟨a, rfl, ?_, ?_, ?_⟩
    · by_contra hent
      have hun : a.info.sealTime = 0 := hallun a (by rw [hseg]; simp)
      have htl : s.tail = some a.info.baseIndex :=
        (htail a (by rw [hseg]; simp)).2
      rcases hgl : a.entries.getLast? with _ | e
      · exact hent (by simpa using hgl)
      · have hidx := consecFrom_getLast a.entries a.info.baseIndex e
          (hshape a (by rw [hseg]; simp)) hgl
        have hlen : a.entries ≠ [] := fun h => by simp [h] at hgl
        have hlen1 : 1 ≤ a.entries.length := List.length_pos.mpr hlen
        have hb1 : 1 ≤ a.info.baseIndex := (hbase a (by rw [hseg]; simp)).1
        have htle : s.tailLastIndex = e.index := by
          unfold state.tailLastIndex state.tailEntries
          rw [htl, hseg]
          simp [hgl]
        have : 0 < s.tailLastIndex := by omega
        unfold state.lastIndex at hl
        simp only [this, if_pos] at hl
        omega
    · exact hallun a (by rw [hseg]; simp)
    · exact (htail a (by rw [hseg]; simp)).2
  · exfalso
    have hmem : a ∈ s.segments.dropLast := by
      rw [hseg]
      simp [List.dropLast]
    exact (hinit a hmem) (hallun a (by rw [hseg]; simp))

/-- Claim C3 counterexample: on the freshly opened (empty) WAL the batch
with indices `[0, 5]` has an adjacent violation (5 is not 0+1), yet
`StoreLogs` succeeds and appends both entries: the validation loop never
checks an entry whose running `lastIdx` is 0. -/
theorem c3_counterexample :
    batchViolation ((initialState 100).lastIndex) [⟨0, [1]⟩, ⟨5, [2]⟩] = true ∧
    (storeLogs 100 0 (initialState 100) [⟨0, [1]⟩, ⟨5, [2]⟩]).2 = none ∧
    allEntries (storeLogs 100 0 (initialState 100) [⟨0, [1]⟩, ⟨5, [2]⟩]).1 =
      [⟨0, [1]⟩, ⟨5, [2]⟩] := by decide

/-- Unfolding of `storeLogs` on a non-empty batch once the tail info is
known. -/
lemma storeLogs_cons_eq (cfg now : Nat) (s : state) (e0 : LogEntry)
    (rest : List LogEntry) (ti : segmentState) (hti : s.getTailInfo = some ti) :
    storeLogs cfg now s (e0 :: rest) =
      match (if s.lastIndex = 0 ∧ e0.index ≠ ti.info.baseIndex
             then resetEmptyFirstSegmentBaseIndex cfg now s e0.index
             else (s, none)) with
      | (s1, some e) => (s1, some e)
      | (s1, none) =>
        if validateMonotonic s.lastIndex (e0 :: rest) = true
        then (s1, some WalErr.nonMonotonic)
        else (tailAppend s1 (e0 :: rest), none) := by
  unfold storeLogs
  rw [hti]

/-- A reset of the empty single-segment log to a fresh positive base
index replaces the tail with a fresh empty segment at that base. -/
lemma reset_empty_single (cfg now : Nat) (s : state) (n : Nat) (ti : segmentState)
    (hti : s.getTailInfo = some ti) (hseg : s.segments = [ti])
    (hl : s.lastIndex = 0) (hne : ti.info.baseIndex ≠ n) (hn : 0 < n) :
    resetEmptyFirstSegmentBaseIndex cfg now s n =
      ({ segments := [⟨newSegment cfg now s.nextSegmentID n, []⟩],
         tail := some n, nextSegmentID := s.nextSegmentID + 1,
         nextBaseIndex := n }, none) := by
  unfold resetEmptyFirstSegmentBaseIndex
  rw [if_neg (by omega), hti]
  dsimp only
  rw [if_neg hne]
  simp [createNextSegment, state.getTailInfo, hseg, segDelete, segSet, newSegment, hn]

/-- Claim C3 (amended): for every non-empty batch all of whose entries
have positive indices, any violation of the monotonicity contract (an
adjacent pair not stepping by one, or, when the log is non-empty, a first
entry different from `lastIndex + 1`) makes `StoreLogs` return the
non-monotonic error with no entry appended anywhere (batches containing
index 0 can evade the check, as the counterexample shows). -/
theorem c3_amended_nonmonotonic_rejected (cfg now : Nat) (s : state)
    (encoded : List LogEntry) (hwf : WF s) (hne : encoded ≠ [])
    (hpos : ∀ e ∈ encoded, 1 ≤ e.index)
    (hv : batchViolation s.lastIndex encoded = true) :
    (storeLogs cfg now s encoded).2 = some WalErr.nonMonotonic ∧
    allEntries (storeLogs cfg now s encoded).1 = allEntries s := by
  rcases encoded with _ | ⟨e0, rest⟩
  · exact absurd rfl hne
  have hval : validateMonotonic s.lastIndex (e0 :: rest) = true :=
    validateMonotonic_of_violation (e0 :: rest) s.lastIndex hpos hv
  rcases hti : s.getTailInfo with _ | ti
  · exfalso
    have := hwf.1
    unfold state.getTailInfo at hti
    rw [List.getLast?_eq_none_iff] at hti
    exact this hti
  by_cases hc : s.lastIndex = 0 ∧ e0.index ≠ ti.info.baseIndex
  · obtain ⟨seg, hseg, hent, hsl, htl⟩ := WF_empty_struct s hwf hc.1
    have htieq : ti = seg := by
      unfold state.getTailInfo at hti
      rw [hseg] at hti
      simpa using hti.symm
    subst htieq
    have he0 : 1 ≤ e0.index := hpos e0 (by simp)
    rw [storeLogs_cons_eq cfg now s e0 rest ti hti, if_pos hc,
      reset_empty_single cfg now s e0.index ti hti hseg hc.1 (Ne.symm hc.2) (by omega)]
    simp [hval, allEntries, hseg, hent]
  · rw [storeLogs_cons_eq cfg now s e0 rest ti hti, if_neg hc]
    simp [hval]

theorem c3_witness :
    (storeLogs 100 0 (initialState 100) [⟨1, [1]⟩, ⟨5, [2]⟩]).2 =
      some WalErr.nonMonotonic ∧
    allEntries (storeLogs 100 0 (initialState 100) [⟨1, [1]⟩, ⟨5, [2]⟩]).1 =
      allEntries (initialState 100) :=
  c3_amended_nonmonotonic_rejected 100 0 (initialState 100)
    [⟨1, [1]⟩, ⟨5, [2]⟩] (by decide) (by decide) (by decide) (by decide)

/-- Claim C4 counterexample: on the freshly opened empty WAL (tail base 1,
segment ID 0), appending a first entry with index 0 satisfies the claim's
premise (`lastIndex = 0` and the entry's index differs from the tail's
base), and the tail is indeed replaced (its segment ID becomes 1), but the
replacement's `BaseIndex` is 1, not the first entry's index 0: a zero
`nextBaseIndex` means "unset" inside `createNextSegment`. -/
theorem c4_counterexample :
    (initialState 100).lastIndex = 0 ∧
    ((initialState 100).getTailInfo.map (fun t => t.info.baseIndex)) = some 1 ∧
    ((storeLogs 100 0 (initialState 100) [⟨0, [1]⟩]).1.getTailInfo.map
      (fun t => t.info.id)) = some 1 ∧
    ((storeLogs 100 0 (initialState 100) [⟨0, [1]⟩]).1.getTailInfo.map
      (fun t => t.info.baseIndex)) = some 1 ∧
    (storeLogs 100 0 (initialState 100) [⟨0, [1]⟩]).2 = none := by decide

/-- Claim C4 (amended): when the log is empty and the first entry's index
is positive and differs from the tail's base, `StoreLogs` replaces the
empty tail with a segment whose `BaseIndex` equals the first entry's index
before appending (for index 0 the replacement lands on base 1 instead, as
the counterexample shows); and `resetEmptyFirstSegmentBaseIndex` errors,
changing nothing, whenever the log is non-empty. -/
theorem c4_amended_reset_base (cfg now : Nat) (s : state) (e0 : LogEntry)
    (rest : List LogEntry) (ti : segmentState) (hwf : WF s)
    (hl0 : s.lastIndex = 0) (hpos : 1 ≤ e0.index)
    (hti : s.getTailInfo = some ti) (hne : e0.index ≠ ti.info.baseIndex) :
    (∃ t, (storeLogs cfg now s (e0 :: rest)).1.getTailInfo = some t ∧
      t.info.baseIndex = e0.index) ∧
    (∀ (s' : state) (n : Nat), 0 < s'.lastIndex →
      resetEmptyFirstSegmentBaseIndex cfg now s' n = (s', some WalErr.notEmpty)) := by
  constructor
  · obtain ⟨seg, hseg, hent, hsl, htl⟩ := WF_empty_struct s hwf hl0
    have htieq : ti = seg := by
      unfold state.getTailInfo at hti
      rw [hseg] at hti
      simpa using hti.symm
    subst htieq
    rw [storeLogs_cons_eq cfg now s e0 rest ti hti, if_pos ⟨hl0, hne⟩,
      reset_empty_single cfg now s e0.index ti hti hseg hl0 (Ne.symm hne) (by omega)]
    by_cases hval : validateMonotonic s.lastIndex (e0 :: rest) = true
    · refine ⟨⟨newSegment cfg now s.nextSegmentID e0.index, []⟩, ?_, ?_⟩
      · simp [hval, state.getTailInfo]
      · simp [newSegment]
    · refine ⟨⟨newSegment cfg now s.nextSegmentID e0.index, e0 :: rest⟩, ?_, ?_⟩
      · simp [hval, state.getTailInfo, tailAppend, newSegment]
      · simp [newSegment]
  · intro s' n h
    unfold resetEmptyFirstSegmentBaseIndex
    rw [if_pos h]

theorem c4_witness :
    (∃ t, (storeLogs 100 0 (initialState 100) [⟨5, [7]⟩]).1.getTailInfo = some t ∧
      t.info.baseIndex = 5) ∧
    resetEmptyFirstSegmentBaseIndex 100 0
        (storeLogs 100 0 (initialState 100) [⟨5, [7]⟩]).1 9 =
      ((storeLogs 100 0 (initialState 100) [⟨5, [7]⟩]).1, some WalErr.notEmpty) :=
  ⟨(c4_amended_reset_base 100 0 (initialState 100) ⟨5, [7]⟩ []
      ⟨newSegment 100 0 0 1, []⟩ (by decide) (by decide) (by decide) rfl
      (by decide)).1,
   (c4_amended_reset_base 100 0 (initialState 100) ⟨5, [7]⟩ []
      ⟨newSegment 100 0 0 1, []⟩ (by decide) (by decide) (by decide) rfl
      (by decide)).2
     (storeLogs 100 0 (initialState 100) [⟨5, [7]⟩]).1 9 (by decide)⟩

/-- Deleting the head's base removes exactly the head when no later
segment shares that base. -/
lemma segDelete_head (a : segmentState) (rest : List segmentState)
    (h : ∀ y ∈ rest, a.info.baseIndex ≠ y.info.baseIndex) :
    segDelete (a :: rest) a.info.baseIndex = rest := by
  unfold segDelete
  rw [List.filter_cons, if_neg (by simp)]
  apply List.filter_eq_self.mpr
  intro y hy
  simpa using (h y hy).symm

/-- Looking up the base of the final segment finds it when no earlier
segment shares that base. -/
lemma find?_base_last (pre : List segmentState) (seg : segmentState)
    (h : ∀ y ∈ pre, y.info.baseIndex ≠ seg.info.baseIndex) :
    (pre ++ [seg]).find? (fun ss => ss.info.baseIndex == seg.info.baseIndex)
      = some seg := by
  induction pre with
  | nil => simp
  | cons a rest ih =>
    rw [List.cons_append, List.find?_cons_of_neg _ (by simpa using h a (by simp))]
    exact ih fun y hy => h y (by simp [hy])

/-- Under well-formedness, the front-truncation loop with a bound past
the current last index deletes every segment and reports no surviving
head. -/
lemma truncHeadLoop_deletes_all (s0 : state) (newMin : Nat) (hwf : WF s0)
    (h : s0.lastIndex < newMin) :
    ∀ (l pre : List segmentState), s0.segments = pre ++ l →
      truncHeadLoop newMin { s0 with segments := l } l =
        ({ s0 with segments := [] }, none) := by
  obtain ⟨hne, hsort, hinit, htail, hbase, hrange, hshape, hfl⟩ := hwf
  intro l
  induction l with
  | nil => intro pre hpre; rfl
  | cons seg rest ih =>
    intro pre hpre
    have hmem : seg ∈ s0.segments := by rw [hpre]; simp
    have hsub : List.Pairwise (fun a b => a.info.baseIndex < b.info.baseIndex)
        (seg :: rest) :=
      List.Pairwise.sublist (List.sublist_append_right pre (seg :: rest))
        (by rw [← hpre]; exact hsort)
    have hlt : ∀ y ∈ rest, seg.info.baseIndex < y.info.baseIndex :=
      (List.pairwise_cons.mp hsub).1
    by_cases hseal : seg.info.sealTime = 0
    · have hrest : rest = [] := by
        rcases rest with _ | ⟨r1, rest'⟩
        · rfl
        · exfalso
          have hdp : seg ∈ s0.segments.dropLast := by
            rw [hpre, List.dropLast_append_cons]
            simp [List.dropLast]
          exact hinit seg hdp hseal
      subst hrest
      have hlastq : s0.segments.getLast? = some seg := by
        rw [hpre]
        exact List.getLast?_concat pre
      have htl : s0.tail = some seg.info.baseIndex :=
        (htail seg (by simp [Option.mem_def, hlastq])).2
      have hpreNe : ∀ y ∈ pre, y.info.baseIndex ≠ seg.info.baseIndex := by
        intro y hy
        have := (List.pairwise_append.mp (by rw [← hpre]; exact hsort)).2.2
        exact Nat.ne_of_lt (this y hy seg (by simp))
      have hmidIdx : state.lastIndex { s0 with segments := [seg] } < newMin := by
        rcases hgl : seg.entries.getLast? with _ | elast
        · have hent : seg.entries = [] := List.getLast?_eq_none_iff.mp hgl
          have : state.lastIndex { s0 with segments := [seg] } = 0 := by
            unfold state.lastIndex state.tailLastIndex state.tailEntries
            rw [htl]
            simp [hent, hseal]
          omega
        · have hidx := consecFrom_getLast seg.entries seg.info.baseIndex elast
            (hshape seg hmem) hgl
          have hlen : seg.entries ≠ [] := by
            intro hq
            rw [hq] at hgl
            simp at hgl
          have hlen1 : 1 ≤ seg.entries.length := List.length_pos.mpr hlen
          have hb1 : 1 ≤ seg.info.baseIndex := (hbase seg hmem).1
          have he0 : 0 < elast.index := by omega
          have hmid : state.tailLastIndex { s0 with segments := [seg] } = elast.index := by
            unfold state.tailLastIndex state.tailEntries
            rw [htl]
            simp [List.find?_cons_of_pos, hgl]
          have hs0tl : state.tailLastIndex s0 = elast.index := by
            unfold state.tailLastIndex state.tailEntries
            rw [htl]
            dsimp only
            rw [hpre, find?_base_last pre seg hpreNe, hgl]
          have hs0 : state.lastIndex s0 = elast.index := by
            unfold state.lastIndex
            rw [hs0tl, if_pos he0]
          have : state.lastIndex { s0 with segments := [seg] } = elast.index := by
            unfold state.lastIndex
            rw [hmid, if_pos he0]
          omega
      rw [truncHeadLoop, if_pos hseal, if_neg (by omega)]
      have hdel : segDelete [seg] seg.info.baseIndex = [] := by
        simp [segDelete]
      rw [hdel]
      rfl
    · obtain ⟨_, hmax⟩ := hrange seg hmem hseal
      rw [truncHeadLoop, if_neg hseal, if_neg (by omega)]
      have hdel : segDelete (seg :: rest) seg.info.baseIndex = rest :=
        segDelete_head seg rest fun y hy => Nat.ne_of_lt (hlt y hy)
      rw [show ({ s0 with segments := seg :: rest } : state).segments = seg :: rest from rfl,
        hdel]
      exact ih (pre ++ [seg]) (by rw [hpre]; simp)

/-- Claim C6: `TruncateFront` with a bound past the current last index
never consults `lastIndex` in its guard and succeeds: every segment is
removed, `nextBaseIndex` becomes the old `lastIndex + 1`, a fresh empty
tail with that base is created, and the resulting state reports
`firstIndex = lastIndex = 0`. -/
theorem c6_truncate_front_reset (cfg now : Nat) (s : state) (newMin : Nat)
    (hwf : WF s) (h : s.lastIndex < newMin) :
    truncateFront cfg now s newMin =
      ({ segments := [⟨newSegment cfg now s.nextSegmentID (s.lastIndex + 1), []⟩],
         tail := some (s.lastIndex + 1), nextSegmentID := s.nextSegmentID + 1,
         nextBaseIndex := s.lastIndex + 1 }, none) ∧
    (truncateFront cfg now s newMin).1.firstIndex = 0 ∧
    (truncateFront cfg now s newMin).1.lastIndex = 0 := by
  have hfl := hwf.2.2.2.2.2.2.2
  have hloop : truncHeadLoop newMin s s.segments = ({ s with segments := [] }, none) :=
    truncHeadLoop_deletes_all s newMin hwf h s.segments [] rfl
  have hmain : truncateFront cfg now s newMin =
      ({ segments := [⟨newSegment cfg now s.nextSegmentID (s.lastIndex + 1), []⟩],
         tail := some (s.lastIndex + 1), nextSegmentID := s.nextSegmentID + 1,
         nextBaseIndex := s.lastIndex + 1 }, none) := by
    unfold truncateFront
    rw [if_neg (by omega)]
    unfold truncateHeadLocked
    rw [hloop]
    dsimp only
    simp [createNextSegment, state.getTailInfo, segSet, newSegment]
  refine ⟨hmain, ?_, ?_⟩
  · rw [hmain]
    simp [state.firstIndex, state.tailLastIndex, state.tailEntries, newSegment]
  · rw [hmain]
    simp [state.lastIndex, state.tailLastIndex, state.tailEntries, newSegment]

theorem c6_witness :
    (truncateFront 100 3 (storeLogs 100 0 (initialState 100) [⟨1, [5]⟩]).1 9).1.firstIndex
      = 0 ∧
    (truncateFront 100 3 (storeLogs 100 0 (initialState 100) [⟨1, [5]⟩]).1 9).1.lastIndex
      = 0 :=
  ⟨(c6_truncate_front_reset 100 3 (storeLogs 100 0 (initialState 100) [⟨1, [5]⟩]).1 9
      (by decide) (by decide)).2.1,
   (c6_truncate_front_reset 100 3 (storeLogs 100 0 (initialState 100) [⟨1, [5]⟩]).1 9
      (by decide) (by decide)).2.2⟩

/-- Deleting the final element's base removes exactly it when no earlier
segment shares that base. -/
lemma segDelete_concat (l : List segmentState) (x : segmentState)
    (h : ∀ y ∈ l, y.info.baseIndex ≠ x.info.baseIndex) :
    segDelete (l ++ [x]) x.info.baseIndex = l := by
  unfold segDelete
  rw [List.filter_append]
  have h1 : List.filter (fun ss => ss.info.baseIndex != x.info.baseIndex) l = l :=
    List.filter_eq_self.mpr (fun y hy => by simpa using h y hy)
  have h2 : List.filter (fun ss => ss.info.baseIndex != x.info.baseIndex) [x] = [] := by
    simp
  rw [h1, h2, List.append_nil]

/-- Applying `segSet` with the base of the final element replaces exactly it. -/
lemma segSet_concat_same (kpre : List segmentState) (tK t2 : segmentState)
    (hb : t2.info.baseIndex = tK.info.baseIndex)
    (h : ∀ y ∈ kpre, y.info.baseIndex < tK.info.baseIndex) :
    segSet (kpre ++ [tK]) t2 = kpre ++ [t2] := by
  induction kpre with
  | nil =>
    rw [List.nil_append, segSet, if_neg (by omega), if_pos hb.symm]
    rfl
  | cons a rest ih =>
    have ha := h a (by simp)
    rw [List.cons_append, segSet, if_neg (by omega), if_neg (by omega),
      ih (fun y hy => h y (by simp [hy])), List.cons_append]

/-- Applying `segSet` with a base above every present base appends at the end. -/
lemma segSet_append_gt (l : List segmentState) (x : segmentState)
    (h : ∀ y ∈ l, y.info.baseIndex < x.info.baseIndex) :
    segSet l x = l ++ [x] := by
  induction l with
  | nil => rfl
  | cons a rest ih =>
    have ha := h a (by simp)
    rw [segSet, if_neg (by omega), if_neg (by omega),
      ih fun y hy => h y (by simp [hy]), List.cons_append]

/-- In a sorted segment list, everything `dropWhile (base ≤ newMax)` keeps
has base above `newMax`. -/
lemma dropWhile_base_gt (newMax : Nat) :
    ∀ (l : List segmentState),
      List.Pairwise (fun a b => a.info.baseIndex < b.info.baseIndex) l →
      ∀ x ∈ l.dropWhile (fun ss => decide (ss.info.baseIndex ≤ newMax)),
        newMax < x.info.baseIndex := by
  intro l
  induction l with
  | nil => simp
  | cons a rest ih =>
    intro hp x hx
    by_cases ha : a.info.baseIndex ≤ newMax
    · rw [List.dropWhile_cons_of_pos (by simpa using ha)] at hx
      exact ih (List.pairwise_cons.mp hp).2 x hx
    · rw [List.dropWhile_cons_of_neg (by simpa using ha)] at hx
      rcases List.mem_cons.mp hx with h1 | h2
      · subst h1
        omega
      · have := (List.pairwise_cons.mp hp).1 x h2
        omega

/-- In a well-formed non-empty log, `firstIndex` is the first segment's
`minIndex`. -/
lemma firstIndex_eq_min (s : state) (hwf : WF s) (hpos : 0 < s.lastIndex) :
    ∃ fs rest0, s.segments = fs :: rest0 ∧ s.firstIndex = fs.info.minIndex := by
  obtain ⟨hne, hsort, hinit, htail, hbase, hrange, hshape, hfl⟩ := hwf
  rcases hseg : s.segments with _ | ⟨fs, rest0⟩
  · exact absurd hseg hne
  refine ⟨fs, rest0, rfl, ?_⟩
  unfold state.firstIndex
  rw [hseg]
  dsimp only
  rw [if_neg ?_]
  rintro ⟨hun, htl0⟩
  have hrest : rest0 = [] := by
    rcases rest0 with _ | ⟨r1, rest'⟩
    · rfl
    · exfalso
      have hdp : fs ∈ s.segments.dropLast := by
        rw [hseg]
        simp [List.dropLast]
      exact hinit fs hdp hun
  subst hrest
  unfold state.lastIndex at hpos
  rw [htl0] at hpos
  simp [hseg, hun] at hpos

/-- The back-truncation loop deletes exactly the reversed run of segments
based past `newMax` and stops at the kept prefix. -/
lemma truncTailLoop_keeps (newMax : Nat) (s0 : state) (keep : List segmentState)
    (hkeep : ∀ x ∈ keep, x.info.baseIndex ≤ newMax) :
    ∀ (rl : List segmentState),
      (∀ x ∈ rl, newMax < x.info.baseIndex) →
      (∀ x ∈ rl, ∀ y ∈ keep, y.info.baseIndex < x.info.baseIndex) →
      List.Pairwise (fun a b => b.info.baseIndex < a.info.baseIndex) rl →
      truncTailLoop newMax { s0 with segments := keep ++ rl.reverse }
        (rl ++ keep.reverse) = { s0 with segments := keep } := by
  intro rl
  induction rl with
  | nil =>
    intro _ _ _
    simp only [List.reverse_nil, List.append_nil, List.nil_append]
    rcases hk : keep.reverse with _ | ⟨lk, rk⟩
    · have : keep = [] := by simpa using congrArg List.reverse hk
      subst this
      rfl
    · have hlk : lk ∈ keep := by
        have h2 : lk ∈ keep.reverse := by rw [hk]; simp
        simpa using h2
      rw [truncTailLoop, if_pos (hkeep lk hlk)]
  | cons x rl' ih =>
    intro hgt hsep hdec
    have hx : newMax < x.info.baseIndex := hgt x (by simp)
    have hall : ∀ y ∈ keep ++ rl'.reverse, y.info.baseIndex ≠ x.info.baseIndex := by
      intro y hy
      rcases List.mem_append.mp hy with h1 | h2
      · exact Nat.ne_of_lt (hsep x (by simp) y h1)
      · have : x.info.baseIndex > y.info.baseIndex :=
          (List.pairwise_cons.mp hdec).1 y (by simpa using h2)
        omega
    have hdel : segDelete (keep ++ (x :: rl').reverse) x.info.baseIndex =
        keep ++ rl'.reverse := by
      rw [List.reverse_cons, ← List.append_assoc]
      exact segDelete_concat (keep ++ rl'.reverse) x hall
    rw [List.cons_append, truncTailLoop, if_neg (by omega)]
    rw [show ({ s0 with segments := keep ++ (x :: rl').reverse } : state).segments
        = keep ++ (x :: rl').reverse from rfl, hdel]
    exact ih (fun y hy => hgt y (by simp [hy]))
      (fun y hy z hz => hsep y (by simp [hy]) z hz)
      (List.pairwise_cons.mp hdec).2

/-- Claim C8 counterexample: on the freshly opened empty WAL,
`TruncateBack 0` proceeds (`firstIndex = 0 ≤ 0 ≤ 0 = lastIndex`) and
removes the empty tail, but afterwards no segment is sealed at all — the
"remaining last segment" whose `MaxIndex` becomes `newMax` does not
exist. -/
theorem c8_counterexample :
    (initialState 100).firstIndex = 0 ∧ (initialState 100).lastIndex = 0 ∧
    truncateBack 100 7 (initialState 100) 0 =
      ({ segments := [⟨newSegment 100 7 1 1, []⟩], tail := some 1,
         nextSegmentID := 2, nextBaseIndex := 0 }, none) ∧
    (∀ seg ∈ (truncateBack 100 7 (initialState 100) 0).1.segments,
      seg.info.sealTime = 0) := by decide

/-- Claim C8 (amended): on a well-formed log that is non-empty
(`0 < lastIndex`; the degenerate empty log also proceeds but leaves no
sealed segment, as the counterexample shows), a back truncation with
`firstIndex ≤ newMax ≤ lastIndex` removes exactly the segments based past
`newMax`, seals the remaining last segment if it was unsealed, sets its
`MaxIndex` to `newMax`, and always creates a fresh writable tail with
base `newMax + 1` — also when `newMax` equals the prior `lastIndex`. -/
theorem c8_truncate_back_shape (cfg now : Nat) (s : state) (newMax : Nat)
    (hwf : WF s) (hnow : 0 < now) (hpos : 0 < s.lastIndex)
    (h1 : s.firstIndex ≤ newMax) (h2 : newMax ≤ s.lastIndex) :
    ∃ pre t2,
      truncateBack cfg now s newMax =
        ({ segments := pre ++ [t2, ⟨newSegment cfg now s.nextSegmentID (newMax + 1), []⟩],
           tail := some (newMax + 1), nextSegmentID := s.nextSegmentID + 1,
           nextBaseIndex := s.nextBaseIndex }, none) ∧
      t2.info.maxIndex = newMax ∧ t2.info.sealTime ≠ 0 ∧
      (truncateBack cfg now s newMax).1.getTailInfo =
        some ⟨newSegment cfg now s.nextSegmentID (newMax + 1), []⟩ := by
  obtain ⟨fs, rest0, hseg0, hfi⟩ := firstIndex_eq_min s hwf hpos
  obtain ⟨hne, hsort, hinit, htail, hbase, hrange, hshape, hfl⟩ := hwf
  have hkd : s.segments.takeWhile (fun ss => decide (ss.info.baseIndex ≤ newMax)) ++
      s.segments.dropWhile (fun ss => decide (ss.info.baseIndex ≤ newMax)) =
      s.segments := List.takeWhile_append_dropWhile _ _
  set keep := s.segments.takeWhile (fun ss => decide (ss.info.baseIndex ≤ newMax))
    with hkeepDef
  set del := s.segments.dropWhile (fun ss => decide (ss.info.baseIndex ≤ newMax))
    with hdelDef
  have hkeep : ∀ x ∈ keep, x.info.baseIndex ≤ newMax := by
    intro x hx
    simpa using List.mem_takeWhile_imp hx
  have hdel : ∀ x ∈ del, newMax < x.info.baseIndex :=
    dropWhile_base_gt newMax s.segments hsort
  have hsepKD : ∀ a ∈ keep, ∀ b ∈ del, a.info.baseIndex < b.info.baseIndex :=
    (List.pairwise_append.mp (by rw [hkd]; exact hsort)).2.2
  have hdelp : List.Pairwise (fun a b => a.info.baseIndex < b.info.baseIndex) del :=
    List.Pairwise.sublist (List.dropWhile_sublist _) hsort
  have hloop0 := truncTailLoop_keeps newMax s keep hkeep del.reverse
    (fun x hx => hdel x (by simpa using hx))
    (fun x hx y hy => hsepKD y hy x (by simpa using hx))
    (List.pairwise_reverse.mpr hdelp)
  rw [List.reverse_reverse, hkd] at hloop0
  have hrev : s.segments.reverse = del.reverse ++ keep.reverse := by
    rw [← hkd, List.reverse_append]
  have hkne : keep ≠ [] := by
    have hple : fs.info.baseIndex ≤ newMax := by
      have hb := (hbase fs (by rw [hseg0]; simp)).2
      have h3 : fs.info.minIndex ≤ newMax := by
        rw [← hfi]
        exact h1
      omega
    rw [hkeepDef, hseg0]
    simp [List.takeWhile_cons, hple]
  have hky : keep.dropLast ++ [keep.getLast hkne] = keep :=
    List.dropLast_append_getLast hkne
  set kpre := keep.dropLast with hkpreDef
  set tK := keep.getLast hkne with htKDef
  have hkp : List.Pairwise (fun a b => a.info.baseIndex < b.info.baseIndex) keep :=
    List.Pairwise.sublist (List.takeWhile_sublist _) hsort
  have hkpre : ∀ y ∈ kpre, y.info.baseIndex < tK.info.baseIndex := by
    have hpa := (List.pairwise_append.mp (by rw [hky]; exact hkp)).2.2
    intro y hy
    exact hpa y hy tK (by simp)
  have htKmem : tK ∈ keep := by
    rw [← hky]
    simp
  have htKle : tK.info.baseIndex ≤ newMax := hkeep tK htKmem
  have hs1 : truncTailLoop newMax s s.segments.reverse = { s with segments := keep } := by
    rw [hrev]
    exact hloop0
  have hgt : state.getTailInfo { s with segments := keep } = some tK := by
    unfold state.getTailInfo
    show keep.getLast? = some tK
    rw [← hky]
    exact List.getLast?_concat kpre
  obtain ⟨T1, hT1eq, hT1base, hT1seal⟩ :
      ∃ T1 : segmentState,
        (if tK.info.sealTime = 0
         then ({ tK with info := { tK.info with sealTime := now } } : segmentState)
         else tK) = T1 ∧
        T1.info.baseIndex = tK.info.baseIndex ∧ T1.info.sealTime ≠ 0 := by
    by_cases hts : tK.info.sealTime = 0
    · refine ⟨_, rfl, by simp [hts], ?_⟩
      simp [hts]
      omega
    · exact ⟨_, rfl, by simp [hts], by simp [hts]⟩
  have hb2 : ∀ y ∈ kpre ++ [({ T1 with info := { T1.info with maxIndex := newMax } }
      : segmentState)],
      y.info.baseIndex <
        (newSegment cfg now s.nextSegmentID (newMax + 1)).baseIndex := by
    intro y hy
    have hx : (newSegment cfg now s.nextSegmentID (newMax + 1)).baseIndex = newMax + 1 :=
      rfl
    rcases List.mem_append.mp hy with hy1 | hy2
    · have := hkpre y hy1
      omega
    · simp at hy2
      subst hy2
      show T1.info.baseIndex < (newSegment cfg now s.nextSegmentID (newMax + 1)).baseIndex
      omega
  have hcalc : truncateBack cfg now s newMax =
      ({ segments := kpre ++
           [({ T1 with info := { T1.info with maxIndex := newMax } } : segmentState),
            ⟨newSegment cfg now s.nextSegmentID (newMax + 1), []⟩],
         tail := some (newMax + 1), nextSegmentID := s.nextSegmentID + 1,
         nextBaseIndex := s.nextBaseIndex }, none) := by
    unfold truncateBack
    rw [if_neg (by omega), if_neg (by omega)]
    unfold truncateTailLocked
    rw [hs1]
    dsimp only
    rw [hgt]
    dsimp only
    rw [hT1eq]
    rw [← hky, segSet_concat_same kpre tK _ (by simpa using hT1base) hkpre]
    unfold createNextSegment state.getTailInfo
    dsimp only
    rw [List.getLast?_concat]
    dsimp only
    rw [segSet_append_gt _ _ hb2]
    simp [newSegment]
  refine ⟨kpre, { T1 with info := { T1.info with maxIndex := newMax } },
    hcalc, by simp, by simpa using hT1seal, ?_⟩
  rw [hcalc]
  unfold state.getTailInfo
  dsimp only
  rw [show kpre ++
      [({ T1 with info := { T1.info with maxIndex := newMax } } : segmentState),
       (⟨newSegment cfg now s.nextSegmentID (newMax + 1), []⟩ : segmentState)] =
      (kpre ++ [({ T1 with info := { T1.info with maxIndex := newMax } } : segmentState)])
      ++ [(⟨newSegment cfg now s.nextSegmentID (newMax + 1), []⟩ : segmentState)] by simp]
  rw [List.getLast?_concat]

theorem c8_witness :
    ∃ pre t2,
      truncateBack 100 9 sampleTwoSegState 3 =
        ({ segments := pre ++
             [t2, ⟨newSegment 100 9 sampleTwoSegState.nextSegmentID (3 + 1), []⟩],
           tail := some (3 + 1), nextSegmentID := sampleTwoSegState.nextSegmentID + 1,
           nextBaseIndex := sampleTwoSegState.nextBaseIndex }, none) ∧
      t2.info.maxIndex = 3 ∧ t2.info.sealTime ≠ 0 ∧
      (truncateBack 100 9 sampleTwoSegState 3).1.getTailInfo =
        some ⟨newSegment 100 9 sampleTwoSegState.nextSegmentID (3 + 1), []⟩ :=
  c8_truncate_back_shape 100 9 sampleTwoSegState 3 (by decide) (by decide) (by decide)
    (by decide) (by decide)

/-- The tail writer of a `midState` holds exactly the appended entries. -/
lemma midState_tailEntries (cfg sid nbi base : Nat) (done : List LogEntry) :
    (midState cfg sid nbi base done).tailEntries = done := by
  unfold state.tailEntries midState
  dsimp only
  rw [List.find?_cons_of_pos _ (by simp [newSegment])]

/-- An entry-free `midState` reports `lastIndex = 0`. -/
lemma midState_lastIndex_nil (cfg sid nbi base : Nat) :
    (midState cfg sid nbi base []).lastIndex = 0 := by
  unfold state.lastIndex state.tailLastIndex
  rw [midState_tailEntries]
  simp [midState, newSegment]

/-- A `midState` holding entries whose last has a positive index reports
that index as `lastIndex`. -/
lemma midState_lastIndex_cons (cfg sid nbi base : Nat) (done : List LogEntry)
    (e : LogEntry) (hgl : done.getLast? = some e) (he : 0 < e.index) :
    (midState cfg sid nbi base done).lastIndex = e.index := by
  have ht : (midState cfg sid nbi base done).tailLastIndex = e.index := by
    unfold state.tailLastIndex
    rw [midState_tailEntries, hgl]
  unfold state.lastIndex
  dsimp only
  rw [ht, if_pos he]

/-- A consecutively indexed batch passes the validation loop whenever it
starts either on an empty log or exactly one past `lastIdx`. -/
lemma validateMonotonic_consec :
    ∀ (es : List LogEntry) (i lastIdx : Nat), consecFrom i es = true →
      (lastIdx = 0 ∨ i = lastIdx + 1) → validateMonotonic lastIdx es = false := by
  intro es
  induction es with
  | nil => intro i l _ _; rfl
  | cons e rest ih =>
    intro i l hc hd
    rw [consecFrom] at hc
    simp only [Bool.and_eq_true, beq_iff_eq] at hc
    rw [validateMonotonic, if_neg ?_]
    · exact ih (i + 1) e.index hc.2 (Or.inr (by omega))
    · rintro ⟨hl, hne⟩
      rcases hd with h0 | hstep
      · omega
      · exact hne (by omega)

/-- The predicate `consecFrom` splits across an append. -/
lemma consecFrom_append :
    ∀ (xs ys : List LogEntry) (i : Nat),
      consecFrom i (xs ++ ys) =
        (consecFrom i xs && consecFrom (i + xs.length) ys) := by
  intro xs
  induction xs with
  | nil => intro ys i; simp [consecFrom]
  | cons x rest ih =>
    intro ys i
    rw [List.cons_append, consecFrom, consecFrom, ih ys (i + 1)]
    have hlen : i + (x :: rest).length = i + 1 + rest.length := by
      simp only [List.length_cons]
      omega
    rw [hlen, Bool.and_assoc]

/-- Appending to the tail of a `midState` extends its entries. -/
lemma tailAppend_midState (cfg sid nbi base : Nat) (done es : List LogEntry) :
    tailAppend (midState cfg sid nbi base done) es =
      midState cfg sid nbi base (done ++ es) := by
  unfold tailAppend midState
  dsimp only
  simp [newSegment]

/-- A first non-empty consecutive batch lands in a single segment based at
its first index (resetting the empty tail when the bases differ). -/
lemma storeLogs_mid_start (cfg i0 sid nbi b0 : Nat) (b : List LogEntry)
    (hb : b ≠ []) (h1 : 1 ≤ i0) (hc : consecFrom i0 b = true) :
    ∃ sid' nbi', storeLogs cfg 0 (midState cfg sid nbi b0 []) b =
      (midState cfg sid' nbi' i0 b, none) := by
  rcases b with _ | ⟨e0, rest⟩
  · exact absurd rfl hb
  have he0 : e0.index = i0 := by
    rw [consecFrom] at hc
    simp only [Bool.and_eq_true, beq_iff_eq] at hc
    exact hc.1
  have hti : (midState cfg sid nbi b0 []).getTailInfo =
      some ⟨newSegment cfg 0 sid b0, []⟩ := rfl
  have hval : validateMonotonic (midState cfg sid nbi b0 []).lastIndex (e0 :: rest)
      = false := by
    rw [midState_lastIndex_nil]
    exact validateMonotonic_consec (e0 :: rest) i0 0 hc (Or.inl rfl)
  rw [storeLogs_cons_eq cfg 0 _ e0 rest _ hti]
  by_cases heq : e0.index = b0
  · rw [if_neg (by rintro ⟨_, hq⟩; exact hq heq)]
    dsimp only
    rw [hval, if_neg (by decide), tailAppend_midState]
    refine ⟨sid, nbi, ?_⟩
    rw [show b0 = i0 by omega, List.nil_append]
  · have hres : resetEmptyFirstSegmentBaseIndex cfg 0 (midState cfg sid nbi b0 [])
        e0.index = (midState cfg (sid + 1) e0.index e0.index [], none) := by
      rw [reset_empty_single cfg 0 (midState cfg sid nbi b0 []) e0.index
        ⟨newSegment cfg 0 sid b0, []⟩ hti rfl (midState_lastIndex_nil cfg sid nbi b0)
        (Ne.symm heq) (by omega)]
      rfl
    rw [if_pos ⟨midState_lastIndex_nil cfg sid nbi b0, heq⟩, hres]
    dsimp only
    rw [hval, if_neg (by decide), tailAppend_midState]
    refine ⟨sid + 1, e0.index, ?_⟩
    rw [List.nil_append, he0]

/-- Appending a further consecutive batch onto a non-empty `midState`
extends its entries in place. -/
lemma storeLogs_mid_continue (cfg i0 sid nbi : Nat) (done b : List LogEntry)
    (hdne : done ≠ []) (h1 : 1 ≤ i0) (hcd : consecFrom i0 done = true)
    (hcb : consecFrom (i0 + done.length) b = true) :
    storeLogs cfg 0 (midState cfg sid nbi i0 done) b =
      (midState cfg sid nbi i0 (done ++ b), none) := by
  rcases b with _ | ⟨e0, rest⟩
  · rw [List.append_nil]
    rfl
  obtain ⟨elast, hgl⟩ : ∃ e, done.getLast? = some e := by
    rcases hq : done.getLast? with _ | e
    · exact absurd (List.getLast?_eq_none_iff.mp hq) hdne
    · exact ⟨e, rfl⟩
  have hlen1 : 1 ≤ done.length := List.length_pos.mpr hdne
  have hidx := consecFrom_getLast done i0 elast hcd hgl
  have hli : (midState cfg sid nbi i0 done).lastIndex = elast.index :=
    midState_lastIndex_cons cfg sid nbi i0 done elast hgl (by omega)
  have he0 : e0.index = i0 + done.length := by
    rw [consecFrom] at hcb
    simp only [Bool.and_eq_true, beq_iff_eq] at hcb
    exact hcb.1
  have hti : (midState cfg sid nbi i0 done).getTailInfo =
      some ⟨newSegment cfg 0 sid i0, done⟩ := rfl
  have hval : validateMonotonic (midState cfg sid nbi i0 done).lastIndex (e0 :: rest)
      = false := by
    rw [hli]
    exact validateMonotonic_consec (e0 :: rest) (i0 + done.length) elast.index hcb
      (Or.inr (by omega))
  rw [storeLogs_cons_eq cfg 0 _ e0 rest _ hti,
    if_neg (by rintro ⟨hz, _⟩; rw [hli] at hz; omega)]
  dsimp only
  rw [hval, if_neg (by decide), tailAppend_midState]

/-- Folding a consecutive run of batches over any state satisfying the
single-segment invariant succeeds and preserves the invariant. -/
lemma storeAll_consec (cfg i0 : Nat) (h1 : 1 ≤ i0) :
    ∀ (batches : List (List LogEntry)) (done : List LogEntry) (s : state),
      PState cfg i0 done s →
      consecFrom i0 (done ++ batches.flatten) = true →
      ∃ s', storeAll cfg s batches = (s', none) ∧
        PState cfg i0 (done ++ batches.flatten) s' := by
  intro batches
  induction batches with
  | nil =>
    intro done s hp hc
    refine ⟨s, rfl, ?_⟩
    simpa using hp
  | cons b bs ih =>
    intro done s hp hc
    rw [List.flatten_cons, ← List.append_assoc] at hc ⊢
    have hsplit1 : consecFrom i0 (done ++ b) = true := by
      rw [consecFrom_append] at hc
      exact ((Bool.and_eq_true _ _).mp hc).1
    rcases hp with ⟨hdnil, sid, nbi, b0, hb0, hs⟩ | ⟨hdne, sid, nbi, hs⟩
    · subst hdnil
      rw [List.nil_append] at hsplit1 hc ⊢
      rcases hbe : b with _ | ⟨e0, rest⟩
      · subst hbe
        rw [storeAll]
        have hstep : storeLogs cfg 0 s [] = (s, none) := rfl
        rw [hstep]
        dsimp only
        have hr := ih [] s (Or.inl ⟨rfl, sid, nbi, b0, hb0, hs⟩) (by simpa using hc)
        simpa using hr
      · subst hbe
        subst hs
        obtain ⟨sid', nbi', hstep⟩ := storeLogs_mid_start cfg i0 sid nbi b0
          (e0 :: rest) (by simp) h1 hsplit1
        rw [storeAll, hstep]
        dsimp only
        exact ih (e0 :: rest) _ (Or.inr ⟨by simp, sid', nbi', rfl⟩) hc
    · have hd2 : consecFrom i0 done = true ∧
          consecFrom (i0 + done.length) b = true := by
        rw [consecFrom_append] at hsplit1
        exact ⟨((Bool.and_eq_true _ _).mp hsplit1).1,
          ((Bool.and_eq_true _ _).mp hsplit1).2⟩
      subst hs
      have hstep := storeLogs_mid_continue cfg i0 sid nbi done b hdne h1 hd2.1 hd2.2
      rw [storeAll, hstep]
      dsimp only
      exact ih (done ++ b) _
        (Or.inr ⟨by simp [hdne], sid, nbi, rfl⟩) hc

/-- Looking up index `k` in a consecutively indexed run finds the entry at
position `k - i`. -/
lemma consecFrom_find? :
    ∀ (es : List LogEntry) (i k : Nat), consecFrom i es = true →
      i ≤ k → k < i + es.length → ∀ (h : k - i < es.length),
      es.find? (fun e => e.index == k) = some (es.get ⟨k - i, h⟩) := by
  intro es
  induction es with
  | nil =>
    intro i k _ _ hk2 h
    simp at h
  | cons e rest ih =>
    intro i k hc hk1 hk2 h
    rw [List.length_cons] at hk2 h
    rw [consecFrom] at hc
    simp only [Bool.and_eq_true, beq_iff_eq] at hc
    by_cases hek : k = i
    · rw [List.find?_cons_of_pos _ (by simp [hc.1, hek])]
      have h0 : k - i = 0 := by omega
      simp only [h0, List.get]
    · rw [List.find?_cons_of_neg _ (by simp [hc.1]; omega)]
      have hlt' : k - (i + 1) < rest.length := by omega
      rw [ih (i + 1) k hc.2 (by omega) (by omega) hlt']
      have hsucc : k - i = (k - (i + 1)) + 1 := by omega
      simp only [hsucc, List.get]

/-- Reading any retained index from a `midState` returns the entry stored
at offset `k - i0`. -/
lemma midState_getLog (cfg sid nbi i0 : Nat) (es : List LogEntry)
    (hc : consecFrom i0 es = true) (k : Nat) (hk1 : i0 ≤ k)
    (hk2 : k < i0 + es.length) (h : k - i0 < es.length) :
    (midState cfg sid nbi i0 es).getLog k = .ok (es.get ⟨k - i0, h⟩).data := by
  unfold state.getLog midState
  dsimp only
  simp only [List.foldl_cons, List.foldl_nil, newSegment]
  rw [if_pos (by simpa using hk1)]
  dsimp only
  rw [if_neg (by simp; omega), if_neg (by simp)]
  unfold segReadLog
  rw [consecFrom_find? es i0 k hc hk1 hk2 h]

/-- Claim C1 counterexample: from the freshly opened WAL, the single
successful `StoreLogs` call appending the (trivially contiguous) batch
with index 0 makes `GetLog 0` fail with `NotFound` — the entry landed in
the base-1 segment and no segment has a base at or below 0 — while the
claim demands that the read return the appended bytes. -/
theorem c1_counterexample :
    (storeAll 100 (initialState 100) [[⟨0, [9]⟩]]).2 = none ∧
    consecFrom 0 ([[⟨0, [9]⟩]] : List (List LogEntry)).flatten = true ∧
    (storeAll 100 (initialState 100) [[⟨0, [9]⟩]]).1.getLog 0 =
      .error WalErr.notFound :=
  ⟨rfl, rfl, rfl⟩

/-- Claim C1 (amended): starting from a freshly opened WAL, after any
sequence of `StoreLogs` calls whose concatenated batches carry contiguous
indices `i0, i0+1, ...` with `i0 ≥ 1`, every call succeeds, `lastIndex`
reports the last appended index, and `GetLog k` returns the bytes
appended for `k` throughout the range (for `i0 = 0` the first entry is
unreadable, as the counterexample shows). -/
theorem c1_amended_round_trip (cfg i0 : Nat) (batches : List (List LogEntry))
    (h1 : 1 ≤ i0) (hidx : consecFrom i0 batches.flatten = true)
    (hne : batches.flatten ≠ []) :
    (storeAll cfg (initialState cfg) batches).2 = none ∧
    (storeAll cfg (initialState cfg) batches).1.lastIndex =
      i0 + batches.flatten.length - 1 ∧
    ∀ (k : Nat), i0 ≤ k → k < i0 + batches.flatten.length →
      ∀ (h : k - i0 < batches.flatten.length),
      (storeAll cfg (initialState cfg) batches).1.getLog k =
        .ok ((batches.flatten.get ⟨k - i0, h⟩).data) := by
  obtain ⟨s', heq, hp⟩ := storeAll_consec cfg i0 h1 batches [] (initialState cfg)
    (Or.inl ⟨rfl, 0, 0, 1, le_refl 1, rfl⟩) (by simpa using hidx)
  rw [List.nil_append] at hp
  rcases hp with ⟨habs, _⟩ | ⟨_, sid, nbi, hs⟩
  · exact absurd habs hne
  obtain ⟨elast, hgl⟩ : ∃ e, batches.flatten.getLast? = some e := by
    rcases hq : batches.flatten.getLast? with _ | e
    · exact absurd (List.getLast?_eq_none_iff.mp hq) hne
    · exact ⟨e, rfl⟩
  have hlen1 : 1 ≤ batches.flatten.length := List.length_pos.mpr hne
  have hidx2 := consecFrom_getLast batches.flatten i0 elast hidx hgl
  refine ⟨?_, ?_, ?_⟩
  · rw [heq]
  · rw [heq]
    dsimp only
    rw [hs, midState_lastIndex_cons cfg sid nbi i0 batches.flatten elast hgl
      (by omega)]
    omega
  · intro k hk1 hk2 h
    rw [heq]
    dsimp only
    rw [hs, midState_getLog cfg sid nbi i0 batches.flatten hidx k hk1 hk2 h]

theorem c1_witness :
    (storeAll 100 (initialState 100) [[⟨2, [7]⟩], [], [⟨3, [8]⟩, ⟨4, [9]⟩]]).2 = none ∧
    (storeAll 100 (initialState 100) [[⟨2, [7]⟩], [], [⟨3, [8]⟩, ⟨4, [9]⟩]]).1.lastIndex
      = 4 ∧
    (storeAll 100 (initialState 100) [[⟨2, [7]⟩], [], [⟨3, [8]⟩, ⟨4, [9]⟩]]).1.getLog 3
      = .ok [8] :=
  ⟨(c1_amended_round_trip 100 2 [[⟨2, [7]⟩], [], [⟨3, [8]⟩, ⟨4, [9]⟩]]
      (by decide) (by decide) (by decide)).1,
   (c1_amended_round_trip 100 2 [[⟨2, [7]⟩], [], [⟨3, [8]⟩, ⟨4, [9]⟩]]
      (by decide) (by decide) (by decide)).2.1,
   (c1_amended_round_trip 100 2 [[⟨2, [7]⟩], [], [⟨3, [8]⟩, ⟨4, [9]⟩]]
      (by decide) (by decide) (by decide)).2.2 3 (by decide) (by decide) (by decide)⟩
